import Mathlib

/-!
Verification of the flat (de)serialization codec of `crates/uplc/src/flat.rs`:
the bit-packed binary codec for untyped-plutus-core programs and terms.

The bit-stream primitive (the `flat` crate: fixed-width bit writes/reads and
variable-length encodings of unsigned/signed integers, byte strings and
booleans) is not part of the shown source; it is modelled from the spec's
description of it and from the wire format pinned down by the reference
fixture.  The codec layer (tags, constants, binder strategies, terms,
programs) is translated directly from `flat.rs`.

Machine integers are modelled as `Nat`/`Int`: `u8` values carry a
`< 256` side condition where it matters, `usize` is `Nat`, `isize` is `Int`.
A Rust `String` / `char` is modelled by its UTF-8 byte sequence.
-/

/-- Outcome of a fallible Rust computation: success, a `Result::Err` with its
message, or a Rust panic (used to model out-of-bounds indexing). -/
inductive RResult (α : Type) where
  | ok (a : α)
  | err (msg : String)
  | panic
  deriving DecidableEq

/-- Sequence two decoding steps, propagating errors and panics. -/
def RResult.andThen (r : RResult (α × List Bool)) (f : α → List Bool → RResult (β × List Bool)) :
    RResult (β × List Bool) :=
  match r with
  | .ok (a, s) => f a s
  | .err m => .err m
  | .panic => .panic

/-- Modelled from the spec: the primitive `bits` write of the bit-stream.
The low `n` bits of `v`, most significant first. -/
def bitsOf : Nat → Nat → List Bool
  | 0, _ => []
  | n + 1, v => bitsOf n (v / 2) ++ [v % 2 == 1]

/-- Value of a most-significant-first bit string. -/
def bitsToNat (l : List Bool) : Nat :=
  l.foldl (fun acc b => 2 * acc + (if b then 1 else 0)) 0

/-- Modelled from the spec: the primitive fixed-width bit read; fails only on
stream exhaustion. -/
def readBits (n : Nat) (s : List Bool) : RResult (Nat × List Bool) :=
  if n ≤ s.length then .ok (bitsToNat (s.take n), s.drop n)
  else .err "stream exhausted: not enough bits in input"

/-- Modelled from the spec: the primitive single-bit read. -/
def readBit (s : List Bool) : RResult (Bool × List Bool) :=
  match s with
  | [] => .err "stream exhausted: not enough bits in input"
  | b :: r => .ok (b, r)

theorem bitsOf_length (n v : Nat) : (bitsOf n v).length = n := by
  induction n generalizing v with
  | zero => rfl
  | succ n ih => simp [bitsOf, ih]

theorem bitsToNat_append_bit (l : List Bool) (b : Bool) :
    bitsToNat (l ++ [b]) = 2 * bitsToNat l + (if b then 1 else 0) := by
  simp [bitsToNat, List.foldl_append]

theorem bitsToNat_bitsOf (n v : Nat) : bitsToNat (bitsOf n v) = v % 2 ^ n := by
  induction n generalizing v with
  | zero => simp [bitsOf, bitsToNat, Nat.mod_one]
  | succ n ih =>
    rw [bitsOf, bitsToNat_append_bit, ih]
    have h2 : v % 2 ^ (n + 1) = v % 2 + 2 * (v / 2 % 2 ^ n) := by
      rw [pow_succ, mul_comm (2 ^ n) 2, Nat.mod_mul]
    have hb : v % 2 = 0 ∨ v % 2 = 1 := by omega
    rcases hb with hb | hb <;> simp [hb] at h2 ⊢ <;> omega

theorem readBits_exact (as rest : List Bool) (n : Nat) (h : as.length = n) :
    readBits n (as ++ rest) = .ok (bitsToNat as, rest) := by
  subst h
  rw [readBits, if_pos (by simp)]
  rw [List.take_left, List.drop_left]

theorem readBits_bitsOf (n v : Nat) (rest : List Bool) (h : v < 2 ^ n) :
    readBits n (bitsOf n v ++ rest) = .ok (v, rest) := by
  rw [readBits_exact _ _ _ (bitsOf_length n v), bitsToNat_bitsOf,
    Nat.mod_eq_of_lt h]

/-- Modelled from the spec: the primitive variable-length unsigned encoding.
The value is split into 7-bit chunks, least significant chunk first; each
chunk is written as an 8-bit group whose top bit flags continuation.  The
fuel argument bounds the recursion; callers supply `n + 1`, which always
suffices since the value shrinks by a factor of 128 each step. -/
def wordBitsF : Nat → Nat → List Bool
  | 0, _ => []
  | f + 1, n =>
    if n < 128 then bitsOf 8 n
    else bitsOf 8 (128 + n % 128) ++ wordBitsF f (n / 128)

/-- Modelled from the spec: write a variable-length unsigned integer. -/
def encodeWord (n : Nat) (s : List Bool) : List Bool :=
  s ++ wordBitsF (n + 1) n

/-- Modelled from the spec: read a variable-length unsigned integer;
8-bit groups are consumed while the continuation bit is set.  The fuel
bounds the loop; each iteration consumes 8 bits, so any fuel of at least
an eighth of the remaining input suffices. -/
def decodeWordF : Nat → List Bool → RResult (Nat × List Bool)
  | 0, _ => .err "stream exhausted: not enough bits in input"
  | f + 1, s =>
    (readBits 8 s).andThen fun w s1 =>
      if w < 128 then .ok (w, s1)
      else (decodeWordF f s1).andThen fun n s2 => .ok ((w - 128) + 128 * n, s2)

/-- Modelled from the spec: read a variable-length unsigned integer
(`usize::decode`). -/
def decodeUsize (s : List Bool) : RResult (Nat × List Bool) :=
  decodeWordF (s.length + 1) s

theorem decodeWordF_wordBitsF (g : Nat) :
    ∀ n f rest, n < g → (wordBitsF g n).length ≤ 8 * f →
      decodeWordF f (wordBitsF g n ++ rest) = .ok (n, rest) := by
  induction g with
  | zero => intro n f rest h; omega
  | succ g ih =>
    intro n f rest hn hf
    rw [wordBitsF] at hf ⊢
    by_cases h : n < 128
    · simp only [h, if_true] at hf ⊢
      have hf1 : 1 ≤ f := by rw [bitsOf_length] at hf; omega
      match f, hf1 with
      | f + 1, _ =>
        rw [decodeWordF, readBits_bitsOf 8 n rest (by omega), RResult.andThen,
          if_pos h]
    · simp only [h, if_false] at hf ⊢
      have hw : 128 + n % 128 < 256 := by omega
      have hlen : (bitsOf 8 (128 + n % 128)).length = 8 := bitsOf_length _ _
      have hf1 : 1 ≤ f := by
        rw [List.length_append, hlen] at hf; omega
      match f, hf1 with
      | f + 1, _ =>
        rw [List.append_assoc, decodeWordF,
          readBits_bitsOf 8 (128 + n % 128) _ (by omega), RResult.andThen,
          if_neg (by omega)]
        have hdiv : n / 128 < n := Nat.div_lt_self (by omega) (by omega)
        rw [ih (n / 128) f rest (by omega)
          (by rw [List.length_append, hlen] at hf; omega)]
        rw [RResult.andThen]
        have hval : 128 + n % 128 - 128 + 128 * (n / 128) = n := by omega
        rw [hval]

theorem decodeUsize_encodeWord (n : Nat) (rest : List Bool) :
    decodeUsize (wordBitsF (n + 1) n ++ rest) = .ok (n, rest) := by
  rw [decodeUsize]
  exact decodeWordF_wordBitsF (n + 1) n _ rest (by omega)
    (by simp [List.length_append]; omega)

/-- Modelled from the spec: the zigzag mapping used by the signed
variable-length encoding. -/
def zigzag (i : Int) : Nat :=
  if 0 ≤ i then (2 * i).toNat else (-(2 * i) - 1).toNat

/-- Modelled from the spec: inverse of the zigzag mapping. -/
def unzigzag (n : Nat) : Int :=
  if n % 2 = 0 then (n / 2 : Nat) else -(((n / 2 : Nat) : Int) + 1)

/-- Modelled from the spec: write a variable-length signed integer
(`isize::encode`): zigzag, then the unsigned encoding. -/
def encodeInt (i : Int) (s : List Bool) : List Bool :=
  encodeWord (zigzag i) s

/-- Modelled from the spec: read a variable-length signed integer
(`isize::decode`). -/
def decodeInt (s : List Bool) : RResult (Int × List Bool) :=
  (decodeUsize s).andThen fun n s1 => .ok (unzigzag n, s1)

theorem unzigzag_zigzag (i : Int) : unzigzag (zigzag i) = i := by
  rw [zigzag, unzigzag]
  by_cases h : 0 ≤ i
  · rw [if_pos h]
    have h2 : (2 * i).toNat % 2 = 0 := by omega
    rw [if_pos h2]
    omega
  · rw [if_neg h]
    have h2 : (-(2 * i) - 1).toNat % 2 = 1 := by omega
    rw [if_neg (by omega)]
    omega

theorem decodeInt_encodeInt (i : Int) (s rest : List Bool) :
    decodeInt ((encodeInt i s).drop s.length ++ rest) = .ok (i, rest) := by
  rw [encodeInt, encodeWord, List.drop_left' rfl, decodeInt,
    decodeUsize_encodeWord, RResult.andThen, unzigzag_zigzag]

/-- Modelled from the spec: the filler written before any byte-aligned
payload: zero bits up to the next byte boundary, terminated by a one bit
(a full `00000001` byte when already aligned). -/
def fillerBits (pos : Nat) : List Bool :=
  List.replicate (7 - pos % 8) false ++ [true]

/-- Modelled from the spec: append the filler for the current buffer. -/
def encodeFiller (s : List Bool) : List Bool :=
  s ++ fillerBits s.length

/-- Modelled from the spec: the decoder side of the filler: discard zero
bits until a one bit has been consumed. -/
def decodeFiller : List Bool → RResult (Unit × List Bool)
  | [] => .err "stream exhausted: not enough bits in input"
  | true :: r => .ok ((), r)
  | false :: r => decodeFiller r

theorem decodeFiller_replicate (k : Nat) (rest : List Bool) :
    decodeFiller (List.replicate k false ++ true :: rest) = .ok ((), rest) := by
  induction k with
  | zero => rfl
  | succ k ih => simpa [List.replicate_succ, decodeFiller] using ih

theorem decodeFiller_fillerBits (pos : Nat) (rest : List Bool) :
    decodeFiller (fillerBits pos ++ rest) = .ok ((), rest) := by
  rw [fillerBits, List.append_assoc, List.singleton_append]
  exact decodeFiller_replicate _ rest

/-- A byte written into the bit stream. -/
def byteBits (b : Nat) : List Bool := bitsOf 8 b

/-- A byte sequence written into the bit stream. -/
def bytesOfList : List Nat → List Bool
  | [] => []
  | b :: bs => byteBits b ++ bytesOfList bs

/-- Modelled from the spec: read `n` raw bytes. -/
def readBytes : Nat → List Bool → RResult (List Nat × List Bool)
  | 0, s => .ok ([], s)
  | n + 1, s =>
    (readBits 8 s).andThen fun b s1 =>
      (readBytes n s1).andThen fun bs s2 => .ok (b :: bs, s2)

theorem readBytes_bytesOfList (l : List Nat) (rest : List Bool)
    (h : ∀ b ∈ l, b < 256) :
    readBytes l.length (bytesOfList l ++ rest) = .ok (l, rest) := by
  induction l with
  | nil => rfl
  | cons b bs ih =>
    have hb : b < 256 := h b (by simp)
    rw [List.length_cons, bytesOfList, byteBits, List.append_assoc, readBytes,
      readBits_bitsOf 8 b _ (by omega), RResult.andThen,
      ih (fun x hx => h x (by simp [hx])), RResult.andThen]

/-- Modelled from the spec: the blocks of a byte-string payload: chunks of
at most 255 bytes, each preceded by its length as one byte, terminated by a
zero length byte.  The fuel bounds the chunking loop; callers supply
`l.length + 1`, which always suffices since every chunk is non-empty. -/
def blocksBitsF : Nat → List Nat → List Bool
  | _, [] => byteBits 0
  | 0, _ :: _ => []
  | f + 1, c :: l =>
    byteBits ((c :: l).take 255).length ++ bytesOfList ((c :: l).take 255) ++
      blocksBitsF f ((c :: l).drop 255)

/-- Modelled from the spec: the block encoding of a byte string. -/
def blocksBits (l : List Nat) : List Bool :=
  blocksBitsF (l.length + 1) l

/-- Modelled from the spec: write a byte string (`bytes`): filler to the
next byte boundary, then the length-prefixed blocks. -/
def encodeBytes (l : List Nat) (s : List Bool) : List Bool :=
  s ++ fillerBits s.length ++ blocksBits l

/-- Modelled from the spec: the block-reading loop of the byte-string
decoder: read a length byte; stop at zero, otherwise read that many bytes
and continue.  The fuel bounds the loop; each iteration consumes at least
8 bits, so any fuel of at least an eighth of the remaining input
suffices. -/
def decodeBlocksF : Nat → List Bool → RResult (List Nat × List Bool)
  | 0, _ => .err "stream exhausted: not enough bits in input"
  | f + 1, s =>
    (readBits 8 s).andThen fun n s1 =>
      if n = 0 then .ok ([], s1)
      else
        (readBytes n s1).andThen fun bs s2 =>
          (decodeBlocksF f s2).andThen fun bs2 s3 => .ok (bs ++ bs2, s3)

/-- Modelled from the spec: read a byte string: filler, then blocks. -/
def decodeBytes (s : List Bool) : RResult (List Nat × List Bool) :=
  (decodeFiller s).andThen fun _ s1 => decodeBlocksF (s1.length + 1) s1

theorem decodeBlocksF_blocksBitsF (g : Nat) :
    ∀ l f rest, l.length < g → (∀ b ∈ l, b < 256) →
      (blocksBitsF g l).length ≤ 8 * f →
      decodeBlocksF f (blocksBitsF g l ++ rest) = .ok (l, rest) := by
  induction g with
  | zero => intro l f rest h; omega
  | succ g ih =>
    intro l f rest hl hb hf
    match l with
    | [] =>
      rw [blocksBitsF] at hf ⊢
      have hf1 : 1 ≤ f := by rw [byteBits, bitsOf_length] at hf; omega
      match f, hf1 with
      | f + 1, _ =>
        rw [decodeBlocksF, byteBits, readBits_bitsOf 8 0 rest (by omega),
          RResult.andThen, if_pos rfl]
    | c :: l' =>
      rw [blocksBitsF] at hf ⊢
      have hcklen : 1 ≤ ((c :: l').take 255).length ∧
          ((c :: l').take 255).length < 256 := by
        rw [List.length_take, List.length_cons]
        omega
      have hf1 : 1 ≤ f := by
        rw [List.length_append, List.length_append, byteBits,
          bitsOf_length] at hf
        omega
      match f, hf1 with
      | f + 1, _ =>
        rw [List.append_assoc, List.append_assoc, decodeBlocksF, byteBits,
          readBits_bitsOf 8 _ _ (by omega), RResult.andThen,
          if_neg (by omega)]
        rw [readBytes_bytesOfList _ _
          (fun x hx => hb x (List.mem_of_mem_take hx)), RResult.andThen]
        have hdrop : ((c :: l').drop 255).length < g := by
          rw [List.length_drop]; simp at hl ⊢; omega
        rw [ih _ f rest hdrop
          (fun x hx => hb x (List.mem_of_mem_drop hx))
          (by
            rw [List.length_append, List.length_append, byteBits,
              bitsOf_length] at hf
            omega),
          RResult.andThen, List.take_append_drop]

theorem decodeBytes_encodeBytes (l : List Nat) (s rest : List Bool)
    (h : ∀ b ∈ l, b < 256) :
    decodeBytes ((encodeBytes l s).drop s.length ++ rest) = .ok (l, rest) := by
  rw [encodeBytes, List.append_assoc, List.drop_left' rfl, decodeBytes,
    List.append_assoc, decodeFiller_fillerBits, RResult.andThen]
  exact decodeBlocksF_blocksBitsF (l.length + 1) l _ rest (by omega) h
    (by simp [blocksBits, List.length_append]; omega)

/-- Modelled from the spec: write a boolean as a single bit. -/
def encodeBool (b : Bool) (s : List Bool) : List Bool := s ++ [b]

/-- Modelled from the spec: read a boolean as a single bit. -/
def decodeBool (s : List Bool) : RResult (Bool × List Bool) := readBit s

/-- Modelled from the spec: a Rust `String` is written as its UTF-8 byte
sequence through the byte-string encoding. -/
def encodeString (t : List Nat) (s : List Bool) : List Bool := encodeBytes t s

/-- Modelled from the spec: read a string as its UTF-8 byte sequence. -/
def decodeString (s : List Bool) : RResult (List Nat × List Bool) :=
  decodeBytes s

/-- Modelled from the spec: `encode_list_with`: each element is preceded by
a one bit, and the list is terminated by a zero bit. -/
def encodeListWith (f : α → List Bool → Except String (List Bool)) :
    List α → List Bool → Except String (List Bool)
  | [], s => .ok (s ++ [false])
  | x :: xs, s =>
    match f x (s ++ [true]) with
    | .ok s1 => encodeListWith f xs s1
    | .error m => .error m

/-- Modelled from the spec: `decode_list_with`: read elements while the
next bit is one.  The fuel bounds the loop; each iteration consumes at
least the leading bit, so fuel `s.length + 1` always suffices. -/
def decodeListWithF (dec : List Bool → RResult (α × List Bool)) :
    Nat → List Bool → RResult (List α × List Bool)
  | 0, _ => .err "stream exhausted: not enough bits in input"
  | f + 1, s =>
    (readBit s).andThen fun b s1 =>
      match b with
      | false => .ok ([], s1)
      | true =>
        (dec s1).andThen fun x s2 =>
          (decodeListWithF dec f s2).andThen fun xs s3 => .ok (x :: xs, s3)

/-- Pack a bit stream into bytes, eight bits per byte, in stream order. -/
def bitsToBytesF : Nat → List Bool → List Nat
  | 0, _ => []
  | _, [] => []
  | f + 1, l => bitsToNat (l.take 8) :: bitsToBytesF f (l.drop 8)

/-- Pack a (byte-aligned) bit stream into bytes. -/
def bitsToBytes (l : List Bool) : List Nat :=
  bitsToBytesF (l.length + 1) l

/-- Unpack bytes into the bit stream they carry. -/
def bytesToBits : List Nat → List Bool
  | [] => []
  | b :: bs => byteBits b ++ bytesToBits bs

/-- A bit buffer / remaining bit stream. -/
abbrev Bits := List Bool

/-- Result type of the encoder methods (`Result<(), String>` plus the
written buffer). -/
abbrev EncResult := Except String (List Bool)

/-- Result type of the decoder methods (`Result<T, String>` plus the
remaining stream, or a panic). -/
abbrev DecResult (α : Type) := RResult (α × List Bool)

/-- Modelled from the spec (`ast.rs` is not among the shown sources): a
closed literal.  `String` and `Char` are modelled by their UTF-8 byte
sequences (`Char` by the scalar value, turned into bytes at encode time). -/
inductive Constant where
  | Integer (i : Int)
  | ByteString (bytes : List Nat)
  | String (text : List Nat)
  | Char (c : Nat)
  | Unit
  | Bool (b : Bool)
  deriving DecidableEq

/-- Modelled from the spec: a Named binder: display text (UTF-8 bytes)
plus a process-scoped uniqueness id (an `isize` in the source). -/
structure Name where
  text : List Nat
  unique : Int
  deriving DecidableEq

/-- Modelled from the spec: a pure positional de Bruijn index (`usize`). -/
abbrev DeBruijn := Nat

/-- Source `DeBruijn::new`. -/
def DeBruijn.new (n : Nat) : DeBruijn := n

/-- Modelled from the spec: hybrid binder: display text plus index. -/
structure NamedDeBruijn where
  text : List Nat
  index : DeBruijn
  deriving DecidableEq

/-- Modelled from the spec (`builtins.rs` is not among the shown sources):
a builtin id is a closed enumeration whose wire values are the small
integers 0..127; it is modelled by its wire value. -/
abbrev DefaultFunction := Nat

/-- Modelled from the spec: the term tree, polymorphic over the binder
representation, with exactly eight variants. -/
inductive Term (α : Type) where
  | Var (name : α)
  | Delay (term : Term α)
  | Lambda (parameter_name : α) (body : Term α)
  | Apply (function : Term α) (argument : Term α)
  | Constant (c : Constant)
  | Force (term : Term α)
  | Error
  | Builtin (b : DefaultFunction)
  deriving DecidableEq

/-- Modelled from the spec: a compiled unit: three-part version plus the
root term. -/
structure Program (α : Type) where
  version : Nat × Nat × Nat
  term : Term α
  deriving DecidableEq

/-- The UTF-8 byte sequence of a Unicode scalar value
(`char::encode_utf8`). -/
def utf8Bytes (c : Nat) : List Nat :=
  if c < 0x80 then [c]
  else if c < 0x800 then [0xC0 + c / 64, 0x80 + c % 64]
  else if c < 0x10000 then
    [0xE0 + c / 4096, 0x80 + c / 64 % 64, 0x80 + c % 64]
  else
    [0xF0 + c / 262144, 0x80 + c / 4096 % 64, 0x80 + c / 64 % 64,
      0x80 + c % 64]

/-- Source `BUILTIN_TAG_WIDTH` from `flat.rs`. -/
def BUILTIN_TAG_WIDTH : Nat := 7

/-- Source `CONST_TAG_WIDTH` from `flat.rs`. -/
def CONST_TAG_WIDTH : Nat := 4

/-- Source `TERM_TAG_WIDTH` from `flat.rs`. -/
def TERM_TAG_WIDTH : Nat := 4

/-- Source `safe_encode_bits` from `flat.rs`: guard a fixed-width tag write with an
overflow check, then emit the value's low bits.  The source computes
`2_u8.pow(num_bits) < byte` on `u8` values; for the widths in use (4 and 7)
the `u8` power does not wrap, so it is the mathematical `2 ^ num_bits`. -/
def safe_encode_bits (num_bits byte : Nat) (e : List Bool) :
    Except String (List Bool) :=
  if 2 ^ num_bits < byte then
    .error ("Overflow detected, cannot fit " ++ toString byte ++ " in " ++
      toString num_bits ++ " bits.")
  else
    .ok (e ++ bitsOf num_bits byte)

/-- Source `encode_term_tag` from `flat.rs`. -/
def encode_term_tag (tag : Nat) (e : List Bool) : Except String (List Bool) :=
  safe_encode_bits TERM_TAG_WIDTH tag e

/-- Source `decode_term_tag` from `flat.rs`. -/
def decode_term_tag (d : List Bool) : RResult (Nat × List Bool) :=
  readBits TERM_TAG_WIDTH d

/-- Source `encode_constant_tag` from `flat.rs`. -/
def encode_constant_tag (tag : Nat) (e : List Bool) :
    Except String (List Bool) :=
  safe_encode_bits CONST_TAG_WIDTH tag e

/-- Source `decode_constant_tag` from `flat.rs`. -/
def decode_constant_tag (d : List Bool) : RResult (Nat × List Bool) :=
  readBits CONST_TAG_WIDTH d

/-- Source `encode_constant` from `flat.rs`: the constant-kind tag is written as a
list of exactly one 4-bit tag element. -/
def encode_constant (tag : Nat) (e : List Bool) : Except String (List Bool) :=
  encodeListWith encode_constant_tag [tag] e

/-- Source `decode_constant` from `flat.rs`: read the tag list; more than one
element is a malformed stream; the sole element is returned by indexing,
which panics when the decoded list is empty (`u8_list[0]`). -/
def decode_constant (d : List Bool) : RResult (Nat × List Bool) :=
  (decodeListWithF decode_constant_tag (d.length + 1) d).andThen
    fun u8_list s1 =>
      if u8_list.length > 1 then
        .err "Improper encoding on constant tag. Should be list of one item encoded in 4 bits"
      else
        match u8_list.head? with
        | none => .panic
        | some x => .ok (x, s1)

/-- Source `Encode for DefaultFunction` from `flat.rs`: the builtin id is written
directly with `e.bits` — without `safe_encode_bits`, so without any
overflow check. -/
def DefaultFunction.encode (b : DefaultFunction) (e : List Bool) :
    Except String (List Bool) :=
  .ok (e ++ bitsOf BUILTIN_TAG_WIDTH b)

/-- Modelled from the spec: `u8::try_into` a `DefaultFunction`: the closed
enumeration holds wire ids 0..127; anything else is an invalid builtin
id. -/
def DefaultFunction.tryFrom (n : Nat) : Except String DefaultFunction :=
  if n < 128 then .ok n else .error ("invalid builtin id: " ++ toString n)

/-- Source `Decode for DefaultFunction` from `flat.rs`: a fixed 7-bit tag,
validated against the closed enumeration. -/
def DefaultFunction.decode (d : List Bool) :
    RResult (DefaultFunction × List Bool) :=
  (readBits BUILTIN_TAG_WIDTH d).andThen fun builtin_tag s1 =>
    match DefaultFunction.tryFrom builtin_tag with
    | .ok b => .ok (b, s1)
    | .error m => .err m

/-- Source `Encode for &Constant` from `flat.rs`.  Note the `Char` arm: there is
no char constant tag; the character's UTF-8 bytes are written directly
through the byte-string payload path. -/
def Constant.encode (c : Constant) (e : Bits) : EncResult :=
  match c with
  | .Integer i => do
    let e ← encode_constant 0 e
    pure (encodeInt i e)
  | .ByteString bytes => do
    let e ← encode_constant 1 e
    pure (encodeBytes bytes e)
  | .String s => do
    let e ← encode_constant 2 e
    pure (encodeBytes s e)
  | .Char c => pure (encodeBytes (utf8Bytes c) e)
  | .Unit => encode_constant 3 e
  | .Bool b => do
    let e ← encode_constant 4 e
    pure (encodeBool b e)

/-- Source `Decode for Constant` from `flat.rs`: dispatch on the decoded constant
tag; tags outside 0..4 are unknown. -/
def Constant.decode (d : Bits) : DecResult Constant :=
  (decode_constant d).andThen fun tag s1 =>
    match tag with
    | 0 => (decodeInt s1).andThen fun i s2 => .ok (.Integer i, s2)
    | 1 => (decodeBytes s1).andThen fun b s2 => .ok (.ByteString b, s2)
    | 2 => (decodeString s1).andThen fun t s2 => .ok (.String t, s2)
    | 3 => .ok (.Unit, s1)
    | 4 => (decodeBool s1).andThen fun b s2 => .ok (.Bool b, s2)
    | x => .err ("Unknown constant constructor tag: " ++ toString x)

/-- Source `Encode for Name` from `flat.rs`: text, then uniqueness id. -/
def Name.encode (n : Name) (e : List Bool) : Except String (List Bool) :=
  .ok (encodeInt n.unique (encodeString n.text e))

/-- Source `Decode for Name` from `flat.rs`. -/
def Name.decode (d : List Bool) : RResult (Name × List Bool) :=
  (decodeString d).andThen fun text s1 =>
    (decodeInt s1).andThen fun unique s2 =>
      .ok ({ text := text, unique := unique }, s2)

/-- Source `Encode for NamedDeBruijn` from `flat.rs`: text, then index. -/
def NamedDeBruijn.encode (n : NamedDeBruijn) (e : List Bool) :
    Except String (List Bool) :=
  .ok (encodeWord n.index (encodeString n.text e))

/-- Source `Decode for NamedDeBruijn` from `flat.rs`. -/
def NamedDeBruijn.decode (d : List Bool) :
    RResult (NamedDeBruijn × List Bool) :=
  (decodeString d).andThen fun text s1 =>
    (decodeUsize s1).andThen fun index s2 =>
      .ok ({ text := text, index := index }, s2)

/-- Source `Encode for DeBruijn` from `flat.rs`: the index as a variable-length
unsigned integer. -/
def DeBruijn.encode (n : DeBruijn) (e : List Bool) :
    Except String (List Bool) :=
  .ok (encodeWord n e)

/-- Source `Decode for DeBruijn` from `flat.rs`. -/
def DeBruijn.decode (d : List Bool) : RResult (DeBruijn × List Bool) :=
  (decodeUsize d).andThen fun n s1 => .ok (DeBruijn.new n, s1)

/-- The `Binder` capability of `flat.rs`: the ordinary occurrence codec
plus a separate binder-position codec. -/
structure BinderImpl (α : Type) where
  enc : α → List Bool → Except String (List Bool)
  dec : List Bool → RResult (α × List Bool)
  binder_encode : α → List Bool → Except String (List Bool)
  binder_decode : List Bool → RResult (α × List Bool)

/-- Source `Binder for Name` from `flat.rs`: binder position and occurrence are
encoded identically. -/
def nameBinder : BinderImpl Name where
  enc := Name.encode
  dec := Name.decode
  binder_encode := Name.encode
  binder_decode := Name.decode

/-- Source `Binder for NamedDeBruijn` from `flat.rs`: at a binder position only
the text is written, and on decode the index is reset to the sentinel 0. -/
def namedDeBruijnBinder : BinderImpl NamedDeBruijn where
  enc := NamedDeBruijn.encode
  dec := NamedDeBruijn.decode
  binder_encode := fun n e => .ok (encodeString n.text e)
  binder_decode := fun d =>
    (decodeString d).andThen fun text s1 =>
      .ok ({ text := text, index := DeBruijn.new 0 }, s1)

/-- Source `Binder for DeBruijn` from `flat.rs`: at a binder position nothing is
written, and decode yields the sentinel index 0 without reading. -/
def deBruijnBinder : BinderImpl DeBruijn where
  enc := DeBruijn.encode
  dec := DeBruijn.decode
  binder_encode := fun _ e => .ok e
  binder_decode := fun d => .ok (DeBruijn.new 0, d)

/-- Source `Encode for Term` from `flat.rs`: 4-bit variant tag, then the payload
fields in declared order. -/
def Term.encode (B : BinderImpl α) : Term α → List Bool → Except String (List Bool)
  | .Var name, e => do
    let e ← encode_term_tag 0 e
    B.enc name e
  | .Delay term, e => do
    let e ← encode_term_tag 1 e
    Term.encode B term e
  | .Lambda parameter_name body, e => do
    let e ← encode_term_tag 2 e
    let e ← B.binder_encode parameter_name e
    Term.encode B body e
  | .Apply function argument, e => do
    let e ← encode_term_tag 3 e
    let e ← Term.encode B function e
    Term.encode B argument e
  | .Constant constant, e => do
    let e ← encode_term_tag 4 e
    Constant.encode constant e
  | .Force term, e => do
    let e ← encode_term_tag 5 e
    Term.encode B term e
  | .Error, e => encode_term_tag 6 e
  | .Builtin builtin, e => do
    let e ← encode_term_tag 7 e
    DefaultFunction.encode builtin e

/-- Source `Decode for Term` from `flat.rs`: read the 4-bit tag and dispatch; tags
8 and above are unknown term constructor tags.  The fuel bounds the
recursion; every recursive call consumes at least the 4-bit tag, so fuel
`d.length + 1` always suffices. -/
def Term.decode (B : BinderImpl α) : Nat → List Bool → RResult (Term α × List Bool)
  | 0, _ => .err "stream exhausted: not enough bits in input"
  | fuel + 1, d =>
    (decode_term_tag d).andThen fun tag s1 =>
      match tag with
      | 0 => (B.dec s1).andThen fun n s2 => .ok (.Var n, s2)
      | 1 =>
        (Term.decode B fuel s1).andThen fun t s2 => .ok (.Delay t, s2)
      | 2 =>
        (B.binder_decode s1).andThen fun n s2 =>
          (Term.decode B fuel s2).andThen fun t s3 => .ok (.Lambda n t, s3)
      | 3 =>
        (Term.decode B fuel s1).andThen fun t1 s2 =>
          (Term.decode B fuel s2).andThen fun t2 s3 =>
            .ok (.Apply t1 t2, s3)
      | 4 => (Constant.decode s1).andThen fun c s2 => .ok (.Constant c, s2)
      | 5 =>
        (Term.decode B fuel s1).andThen fun t s2 => .ok (.Force t, s2)
      | 6 => .ok (.Error, s1)
      | 7 =>
        (DefaultFunction.decode s1).andThen fun b s2 => .ok (.Builtin b, s2)
      | x => .err ("Unknown term constructor tag: " ++ toString x)

/-- Source `Encode for Program` from `flat.rs`: major, minor, patch as unsigned
variable-length integers, then the root term. -/
def Program.encode (B : BinderImpl α) (p : Program α) (e : List Bool) :
    Except String (List Bool) :=
  Term.encode B p.term
    (encodeWord p.version.2.2 (encodeWord p.version.2.1
      (encodeWord p.version.1 e)))

/-- Source `Decode for Program` from `flat.rs`: mirror order, no consistency check
on the version. -/
def Program.decodeFrom (B : BinderImpl α) (d : List Bool) :
    RResult (Program α × List Bool) :=
  (decodeUsize d).andThen fun major s1 =>
    (decodeUsize s1).andThen fun minor s2 =>
      (decodeUsize s2).andThen fun patch s3 =>
        (Term.decode B (s3.length + 1) s3).andThen fun term s4 =>
          .ok ({ version := (major, minor, patch), term := term }, s4)

/-- Source `Program::to_flat` via the `Flat` trait: encode from an empty buffer,
append the final filler, return the bytes. -/
def Program.to_flat (B : BinderImpl α) (p : Program α) :
    Except String (List Nat) :=
  match Program.encode B p [] with
  | .ok bits => .ok (bitsToBytes (bits ++ fillerBits bits.length))
  | .error m => .error m

/-- Source `Program::unflat` via the `Flat` trait: decode from the bytes; trailing
filler is left unread. -/
def Program.unflat (B : BinderImpl α) (bytes : List Nat) :
    RResult (Program α) :=
  match Program.decodeFrom B (bytesToBits bytes) with
  | .ok (p, _) => .ok p
  | .err m => .err m
  | .panic => .panic

/-- The `u8` representation invariant of a Rust byte vector. -/
def listU8 (l : List Nat) : Bool := l.all (fun b => b < 256)

/-- Representation invariant of a `Constant` value as it exists in Rust:
bytes are `u8`, a char is a Unicode scalar value. -/
def wellFormedConstant : Constant → Bool
  | .Integer _ => true
  | .ByteString b => listU8 b
  | .String t => listU8 t
  | .Char c => c < 0x110000
  | .Unit => true
  | .Bool _ => true

/-- Whether a constant is the `Char` variant. -/
def isCharConstant : Constant → Bool
  | .Char _ => true
  | _ => false

/-- Representation invariant of a `Name`. -/
def Name.wellFormed (n : Name) : Bool := listU8 n.text

/-- Representation invariant of a term, parameterized by the binder's
invariant; builtin ids come from the closed 0..127 enumeration. -/
def Term.wellFormedWith (p : α → Bool) : Term α → Bool
  | .Var n => p n
  | .Delay t => Term.wellFormedWith p t
  | .Lambda n t => p n && Term.wellFormedWith p t
  | .Apply f a => Term.wellFormedWith p f && Term.wellFormedWith p a
  | .Constant c => wellFormedConstant c
  | .Force t => Term.wellFormedWith p t
  | .Error => true
  | .Builtin b => b < 128

/-- Whether a term contains no `Char` constant. -/
def Term.charFree : Term α → Bool
  | .Var _ => true
  | .Delay t => Term.charFree t
  | .Lambda _ t => Term.charFree t
  | .Apply f a => Term.charFree f && Term.charFree a
  | .Constant c => !isCharConstant c
  | .Force t => Term.charFree t
  | .Error => true
  | .Builtin _ => true

/-- Node count of a term, a bound for the decoder's recursion depth. -/
def Term.size : Term α → Nat
  | .Var _ => 1
  | .Delay t => t.size + 1
  | .Lambda _ t => t.size + 1
  | .Apply f a => f.size + a.size + 1
  | .Constant _ => 1
  | .Force t => t.size + 1
  | .Error => 1
  | .Builtin _ => 1

theorem decodeBytes_fillerBlocks (l : List Nat) (p : Nat) (rest : List Bool)
    (h : ∀ b ∈ l, b < 256) :
    decodeBytes ((fillerBits p ++ blocksBits l) ++ rest) = .ok (l, rest) := by
  rw [List.append_assoc, decodeBytes, decodeFiller_fillerBits,
    RResult.andThen]
  exact decodeBlocksF_blocksBitsF (l.length + 1) l _ rest (by omega) h
    (by simp [blocksBits, List.length_append]; omega)

theorem encodeBytes_emit (l : List Nat) (s : List Bool) :
    encodeBytes l s = s ++ (fillerBits s.length ++ blocksBits l) := by
  rw [encodeBytes, List.append_assoc]

theorem decodeInt_wordBits (i : Int) (rest : List Bool) :
    decodeInt (wordBitsF (zigzag i + 1) (zigzag i) ++ rest) = .ok (i, rest) := by
  rw [decodeInt, decodeUsize_encodeWord, RResult.andThen, unzigzag_zigzag]

theorem listU8_mem {l : List Nat} (h : listU8 l = true) : ∀ b ∈ l, b < 256 := by
  intro b hb
  have := List.all_eq_true.mp h b hb
  simpa using this

theorem name_codec_roundtrip (n : Name) (e : List Bool)
    (h : Name.wellFormed n = true) :
    ∃ em, Name.encode n e = .ok (e ++ em) ∧
      ∀ rest, Name.decode (em ++ rest) = .ok (n, rest) := by
  refine ⟨(fillerBits e.length ++ blocksBits n.text) ++
    wordBitsF (zigzag n.unique + 1) (zigzag n.unique), ?_, ?_⟩
  · rw [Name.encode, encodeString, encodeBytes_emit, encodeInt, encodeWord,
      List.append_assoc]
  · intro rest
    rw [List.append_assoc, Name.decode, decodeString,
      decodeBytes_fillerBlocks n.text e.length _ (listU8_mem h),
      RResult.andThen, decodeInt_wordBits, RResult.andThen]

theorem namedDeBruijn_codec_roundtrip (n : NamedDeBruijn) (e : List Bool)
    (h : listU8 n.text = true) :
    ∃ em, NamedDeBruijn.encode n e = .ok (e ++ em) ∧
      ∀ rest, NamedDeBruijn.decode (em ++ rest) = .ok (n, rest) := by
  refine ⟨(fillerBits e.length ++ blocksBits n.text) ++
    wordBitsF (n.index + 1) n.index, ?_, ?_⟩
  · rw [NamedDeBruijn.encode, encodeString, encodeBytes_emit, encodeWord,
      List.append_assoc]
  · intro rest
    rw [List.append_assoc, NamedDeBruijn.decode, decodeString,
      decodeBytes_fillerBlocks n.text e.length _ (listU8_mem h),
      RResult.andThen, decodeUsize_encodeWord, RResult.andThen]

theorem deBruijn_codec_roundtrip (n : DeBruijn) (e : List Bool) :
    ∃ em, DeBruijn.encode n e = .ok (e ++ em) ∧
      ∀ rest, DeBruijn.decode (em ++ rest) = .ok (n, rest) := by
  refine ⟨wordBitsF (n + 1) n, ?_, ?_⟩
  · rw [DeBruijn.encode, encodeWord]
  · intro rest
    rw [DeBruijn.decode, decodeUsize_encodeWord, RResult.andThen, DeBruijn.new]

theorem builtin_codec_roundtrip (b : DefaultFunction) (e : List Bool)
    (h : b < 128) :
    ∃ em, DefaultFunction.encode b e = .ok (e ++ em) ∧
      ∀ rest, DefaultFunction.decode (em ++ rest) = .ok (b, rest) := by
  refine ⟨bitsOf BUILTIN_TAG_WIDTH b, ?_, ?_⟩
  · rw [DefaultFunction.encode]
  · intro rest
    have h2 : b < 2 ^ 7 := by norm_num at h ⊢; exact h
    rw [DefaultFunction.decode, BUILTIN_TAG_WIDTH,
      readBits_bitsOf 7 b rest h2, RResult.andThen,
      DefaultFunction.tryFrom, if_pos h]

theorem encode_term_tag_ok (tag : Nat) (e : List Bool) (h : tag ≤ 16) :
    encode_term_tag tag e = .ok (e ++ bitsOf 4 tag) := by
  rw [encode_term_tag, TERM_TAG_WIDTH, safe_encode_bits, if_neg (by omega)]

theorem decode_term_tag_bitsOf (tag : Nat) (rest : List Bool) (h : tag < 16) :
    decode_term_tag (bitsOf 4 tag ++ rest) = .ok (tag, rest) := by
  rw [decode_term_tag, TERM_TAG_WIDTH, readBits_bitsOf 4 tag rest (by omega)]

theorem encode_constant_tag_ok (tag : Nat) (e : List Bool) (h : tag ≤ 16) :
    encode_constant_tag tag e = .ok (e ++ bitsOf 4 tag) := by
  rw [encode_constant_tag, CONST_TAG_WIDTH, safe_encode_bits, if_neg (by omega)]

theorem encode_constant_ok (tag : Nat) (e : List Bool) (h : tag ≤ 16) :
    encode_constant tag e = .ok (e ++ (true :: (bitsOf 4 tag ++ [false]))) := by
  rw [encode_constant]
  simp only [encodeListWith]
  rw [encode_constant_tag_ok tag _ h]
  simp [encodeListWith]

theorem decodeListWithF_singleton (k tag : Nat) (rest : List Bool)
    (h : tag < 16) :
    decodeListWithF decode_constant_tag (k + 2)
      (true :: (bitsOf 4 tag ++ (false :: rest))) = .ok ([tag], rest) := by
  rw [decodeListWithF, readBit]
  simp only [RResult.andThen]
  rw [decode_constant_tag, CONST_TAG_WIDTH, readBits_bitsOf 4 tag _ (by omega)]
  simp only [RResult.andThen]
  rw [decodeListWithF, readBit]
  simp only [RResult.andThen]

theorem decode_constant_singleton (tag : Nat) (rest : List Bool)
    (h : tag < 16) :
    decode_constant (true :: (bitsOf 4 tag ++ (false :: rest))) =
      .ok (tag, rest) := by
  have hlen : (true :: (bitsOf 4 tag ++ (false :: rest))).length + 1 =
      (rest.length + 5) + 2 := by
    simp [bitsOf_length]
    omega
  rw [decode_constant, hlen, decodeListWithF_singleton _ _ _ h]
  simp [RResult.andThen]

theorem constant_roundtrip (c : Constant) (e : Bits)
    (hw : wellFormedConstant c = true) (hc : isCharConstant c = false) :
    ∃ em, Constant.encode c e = .ok (e ++ em) ∧
      ∀ rest, Constant.decode (em ++ rest) = .ok (c, rest) := by
  cases c with
  | Integer i =>
    refine ⟨true :: (bitsOf 4 0 ++
      (false :: wordBitsF (zigzag i + 1) (zigzag i))), ?_, ?_⟩
    · simp only [Constant.encode]
      rw [encode_constant_ok 0 e (by omega)]
      simp [Bind.bind, Except.bind, pure, Except.pure, encodeInt, encodeWord]
    · intro rest
      have hshape : (true :: (bitsOf 4 0 ++
          (false :: wordBitsF (zigzag i + 1) (zigzag i)))) ++ rest =
          true :: (bitsOf 4 0 ++
            (false :: (wordBitsF (zigzag i + 1) (zigzag i) ++ rest))) := by
        simp
      rw [Constant.decode, hshape, decode_constant_singleton 0 _ (by omega)]
      simp only [RResult.andThen]
      rw [decodeInt_wordBits]
  | ByteString bytes =>
    have hb : listU8 bytes = true := by simpa [wellFormedConstant] using hw
    refine ⟨true :: (bitsOf 4 1 ++
      (false :: (fillerBits (e.length + 6) ++ blocksBits bytes))), ?_, ?_⟩
    · simp only [Constant.encode]
      rw [encode_constant_ok 1 e (by omega)]
      have hl : (e ++ (true :: (bitsOf 4 1 ++ [false]))).length =
          e.length + 6 := by
        simp [bitsOf_length]
      simp [Bind.bind, Except.bind, pure, Except.pure, encodeBytes_emit, hl]
    · intro rest
      have hshape : (true :: (bitsOf 4 1 ++
          (false :: (fillerBits (e.length + 6) ++ blocksBits bytes)))) ++ rest =
          true :: (bitsOf 4 1 ++
            (false :: ((fillerBits (e.length + 6) ++ blocksBits bytes) ++ rest))) := by
        simp
      rw [Constant.decode, hshape, decode_constant_singleton 1 _ (by omega)]
      simp only [RResult.andThen]
      rw [decodeBytes_fillerBlocks bytes _ rest (listU8_mem hb)]
  | String text =>
    have hb : listU8 text = true := by simpa [wellFormedConstant] using hw
    refine ⟨true :: (bitsOf 4 2 ++
      (false :: (fillerBits (e.length + 6) ++ blocksBits text))), ?_, ?_⟩
    · simp only [Constant.encode]
      rw [encode_constant_ok 2 e (by omega)]
      have hl : (e ++ (true :: (bitsOf 4 2 ++ [false]))).length =
          e.length + 6 := by
        simp [bitsOf_length]
      simp [Bind.bind, Except.bind, pure, Except.pure, encodeBytes_emit, hl]
    · intro rest
      have hshape : (true :: (bitsOf 4 2 ++
          (false :: (fillerBits (e.length + 6) ++ blocksBits text)))) ++ rest =
          true :: (bitsOf 4 2 ++
            (false :: ((fillerBits (e.length + 6) ++ blocksBits text) ++ rest))) := by
        simp
      rw [Constant.decode, hshape, decode_constant_singleton 2 _ (by omega)]
      simp only [RResult.andThen]
      rw [decodeString, decodeBytes_fillerBlocks text _ rest (listU8_mem hb)]
  | Char ch => simp [isCharConstant] at hc
  | Unit =>
    refine ⟨true :: (bitsOf 4 3 ++ [false]), ?_, ?_⟩
    · simp only [Constant.encode]
      rw [encode_constant_ok 3 e (by omega)]
    · intro rest
      have hshape : (true :: (bitsOf 4 3 ++ [false])) ++ rest =
          true :: (bitsOf 4 3 ++ (false :: rest)) := by
        simp
      rw [Constant.decode, hshape, decode_constant_singleton 3 _ (by omega)]
      simp only [RResult.andThen]
  | Bool b =>
    refine ⟨true :: (bitsOf 4 4 ++ (false :: [b])), ?_, ?_⟩
    · simp only [Constant.encode]
      rw [encode_constant_ok 4 e (by omega)]
      simp [Bind.bind, Except.bind, pure, Except.pure, encodeBool]
    · intro rest
      have hshape : (true :: (bitsOf 4 4 ++ (false :: [b]))) ++ rest =
          true :: (bitsOf 4 4 ++ (false :: (b :: rest))) := by
        simp
      rw [Constant.decode, hshape, decode_constant_singleton 4 _ (by omega)]
      simp only [RResult.andThen]
      rw [decodeBool, readBit]

/-- A binder implementation round-trips on values satisfying `p`, both as
occurrence and as binder position. -/
def BinderRoundtrips (B : BinderImpl α) (p : α → Bool) : Prop :=
  (∀ x e, p x = true → ∃ em, B.enc x e = .ok (e ++ em) ∧
    ∀ rest, B.dec (em ++ rest) = .ok (x, rest)) ∧
  (∀ x e, p x = true → ∃ em, B.binder_encode x e = .ok (e ++ em) ∧
    ∀ rest, B.binder_decode (em ++ rest) = .ok (x, rest))

theorem term_roundtrip (B : BinderImpl α) (p : α → Bool)
    (hB : BinderRoundtrips B p) (t : Term α) :
    ∀ e, Term.wellFormedWith p t = true → Term.charFree t = true →
      ∃ em, Term.encode B t e = .ok (e ++ em) ∧
        ∀ rest fuel, t.size ≤ fuel →
          Term.decode B fuel (em ++ rest) = .ok (t, rest) := by
  induction t with
  | Var name =>
    intro e hw hc
    obtain ⟨em, henc, hdec⟩ :=
      hB.1 name (e ++ bitsOf 4 0) (by simpa [Term.wellFormedWith] using hw)
    refine ⟨bitsOf 4 0 ++ em, ?_, ?_⟩
    · simp only [Term.encode]
      rw [encode_term_tag_ok 0 e (by omega)]
      simp [Bind.bind, Except.bind, henc]
    · intro rest fuel hf
      have hf1 : 1 ≤ fuel := by simp [Term.size] at hf; omega
      match fuel, hf1 with
      | fuel + 1, _ =>
        rw [List.append_assoc, Term.decode,
          decode_term_tag_bitsOf 0 _ (by omega)]
        simp only [RResult.andThen]
        rw [hdec rest]
  | Delay t ih =>
    intro e hw hc
    obtain ⟨em, henc, hdec⟩ := ih (e ++ bitsOf 4 1)
      (by simpa [Term.wellFormedWith] using hw)
      (by simpa [Term.charFree] using hc)
    refine ⟨bitsOf 4 1 ++ em, ?_, ?_⟩
    · simp only [Term.encode]
      rw [encode_term_tag_ok 1 e (by omega)]
      simp [Bind.bind, Except.bind, henc]
    · intro rest fuel hf
      have hf1 : 1 ≤ fuel := by simp [Term.size] at hf; omega
      match fuel, hf1 with
      | fuel + 1, _ =>
        rw [List.append_assoc, Term.decode,
          decode_term_tag_bitsOf 1 _ (by omega)]
        simp only [RResult.andThen]
        rw [hdec rest fuel (by simp [Term.size] at hf; omega)]
  | Lambda n t ih =>
    intro e hw hc
    have hwn : p n = true := by
      simp [Term.wellFormedWith] at hw; exact hw.1
    have hwt : Term.wellFormedWith p t = true := by
      simp [Term.wellFormedWith] at hw; exact hw.2
    obtain ⟨emB, hencB, hdecB⟩ := hB.2 n (e ++ bitsOf 4 2) hwn
    obtain ⟨em, henc, hdec⟩ := ih (e ++ (bitsOf 4 2 ++ emB)) hwt
      (by simpa [Term.charFree] using hc)
    refine ⟨bitsOf 4 2 ++ (emB ++ em), ?_, ?_⟩
    · simp only [Term.encode]
      rw [encode_term_tag_ok 2 e (by omega)]
      simp [Bind.bind, Except.bind, hencB, henc]
    · intro rest fuel hf
      have hf1 : 1 ≤ fuel := by simp [Term.size] at hf; omega
      match fuel, hf1 with
      | fuel + 1, _ =>
        rw [List.append_assoc, Term.decode,
          decode_term_tag_bitsOf 2 _ (by omega)]
        simp only [RResult.andThen]
        rw [List.append_assoc, hdecB]
        simp only [RResult.andThen]
        rw [hdec rest fuel (by simp [Term.size] at hf; omega)]
  | Apply f a ihf iha =>
    intro e hw hc
    have hwf : Term.wellFormedWith p f = true := by
      simp [Term.wellFormedWith] at hw; exact hw.1
    have hwa : Term.wellFormedWith p a = true := by
      simp [Term.wellFormedWith] at hw; exact hw.2
    have hcf : Term.charFree f = true := by
      simp [Term.charFree] at hc; exact hc.1
    have hca : Term.charFree a = true := by
      simp [Term.charFree] at hc; exact hc.2
    obtain ⟨emf, hencf, hdecf⟩ := ihf (e ++ bitsOf 4 3) hwf hcf
    obtain ⟨ema, henca, hdeca⟩ := iha (e ++ (bitsOf 4 3 ++ emf)) hwa hca
    refine ⟨bitsOf 4 3 ++ (emf ++ ema), ?_, ?_⟩
    · simp only [Term.encode]
      rw [encode_term_tag_ok 3 e (by omega)]
      simp [Bind.bind, Except.bind, hencf, henca]
    · intro rest fuel hf
      have hf1 : 1 ≤ fuel := by simp [Term.size] at hf; omega
      match fuel, hf1 with
      | fuel + 1, _ =>
        rw [List.append_assoc, Term.decode,
          decode_term_tag_bitsOf 3 _ (by omega)]
        simp only [RResult.andThen]
        rw [List.append_assoc, hdecf _ fuel (by simp [Term.size] at hf; omega)]
        simp only [RResult.andThen]
        rw [hdeca rest fuel (by simp [Term.size] at hf; omega)]
  | Constant c =>
    intro e hw hc
    obtain ⟨em, henc, hdec⟩ := constant_roundtrip c (e ++ bitsOf 4 4)
      (by simpa [Term.wellFormedWith] using hw)
      (by simpa [Term.charFree] using hc)
    refine ⟨bitsOf 4 4 ++ em, ?_, ?_⟩
    · simp only [Term.encode]
      rw [encode_term_tag_ok 4 e (by omega)]
      simp [Bind.bind, Except.bind, henc]
    · intro rest fuel hf
      have hf1 : 1 ≤ fuel := by simp [Term.size] at hf; omega
      match fuel, hf1 with
      | fuel + 1, _ =>
        rw [List.append_assoc, Term.decode,
          decode_term_tag_bitsOf 4 _ (by omega)]
        simp only [RResult.andThen]
        rw [hdec rest]
  | Force t ih =>
    intro e hw hc
    obtain ⟨em, henc, hdec⟩ := ih (e ++ bitsOf 4 5)
      (by simpa [Term.wellFormedWith] using hw)
      (by simpa [Term.charFree] using hc)
    refine ⟨bitsOf 4 5 ++ em, ?_, ?_⟩
    · simp only [Term.encode]
      rw [encode_term_tag_ok 5 e (by omega)]
      simp [Bind.bind, Except.bind, henc]
    · intro rest fuel hf
      have hf1 : 1 ≤ fuel := by simp [Term.size] at hf; omega
      match fuel, hf1 with
      | fuel + 1, _ =>
        rw [List.append_assoc, Term.decode,
          decode_term_tag_bitsOf 5 _ (by omega)]
        simp only [RResult.andThen]
        rw [hdec rest fuel (by simp [Term.size] at hf; omega)]
  | Error =>
    intro e hw hc
    refine ⟨bitsOf 4 6, ?_, ?_⟩
    · simp only [Term.encode]
      rw [encode_term_tag_ok 6 e (by omega)]
    · intro rest fuel hf
      have hf1 : 1 ≤ fuel := by simp [Term.size] at hf; omega
      match fuel, hf1 with
      | fuel + 1, _ =>
        rw [Term.decode, decode_term_tag_bitsOf 6 _ (by omega)]
        simp only [RResult.andThen]
  | Builtin b =>
    intro e hw hc
    obtain ⟨em, henc, hdec⟩ := builtin_codec_roundtrip b (e ++ bitsOf 4 7)
      (by simpa [Term.wellFormedWith] using hw)
    refine ⟨bitsOf 4 7 ++ em, ?_, ?_⟩
    · simp only [Term.encode]
      rw [encode_term_tag_ok 7 e (by omega)]
      simp [Bind.bind, Except.bind, henc]
    · intro rest fuel hf
      have hf1 : 1 ≤ fuel := by simp [Term.size] at hf; omega
      match fuel, hf1 with
      | fuel + 1, _ =>
        rw [List.append_assoc, Term.decode,
          decode_term_tag_bitsOf 7 _ (by omega)]
        simp only [RResult.andThen]
        rw [hdec rest]

theorem nameBinder_roundtrips : BinderRoundtrips nameBinder Name.wellFormed := by
  constructor
  · intro x e hx
    exact name_codec_roundtrip x e hx
  · intro x e hx
    exact name_codec_roundtrip x e hx

instance [DecidableEq ε] [DecidableEq α] : DecidableEq (Except ε α) :=
  fun a b =>
    match a, b with
    | .ok x, .ok y =>
      if h : x = y then isTrue (by rw [h])
      else isFalse (fun hh => h (Except.ok.inj hh))
    | .error x, .error y =>
      if h : x = y then isTrue (by rw [h])
      else isFalse (fun hh => h (Except.error.inj hh))
    | .ok _, .error _ => isFalse (fun hh => Except.noConfusion hh)
    | .error _, .ok _ => isFalse (fun hh => Except.noConfusion hh)

/-- C1 (counterexample): the round-trip claim fails as stated: for the
Named-binder term `Constant(Char 'a')`, decoding the encoding does not
return the term — it panics, because the Char constant was written with no
constant-kind tag and the decoder then reads an empty tag list. -/
theorem named_char_roundtrip_fails :
    (Term.encode nameBinder (.Constant (.Char 97)) []).map
        (fun em => Term.decode nameBinder (em.length + 1) em) =
      .ok .panic := by
  rfl

/-- C1 (amended): for every Term built with Named binders that is
representable in Rust (`u8` text bytes, builtin ids below 128) and contains
no `Char` constant, decoding the result of encoding the term yields the
original term (and the trailing input), for any recursion budget of at
least the term's size. -/
theorem named_term_roundtrip (t : Term Name) (e : Bits)
    (hw : Term.wellFormedWith Name.wellFormed t = true)
    (hc : Term.charFree t = true) :
    ∃ em, Term.encode nameBinder t e = .ok (e ++ em) ∧
      ∀ rest fuel, t.size ≤ fuel →
        Term.decode nameBinder fuel (em ++ rest) = .ok (t, rest) :=
  term_roundtrip nameBinder Name.wellFormed nameBinder_roundtrips t e hw hc

/-- C1 (witness): the amended round-trip applied to the concrete term
`(λ x. x) 5` with Named binders. -/
theorem named_term_roundtrip_witness :
    ∃ em, Term.encode nameBinder
        (.Apply (.Lambda ⟨[120], 1⟩ (.Var ⟨[120], 1⟩))
          (.Constant (.Integer 5))) [] = .ok ([] ++ em) ∧
      ∀ rest fuel,
        (Term.Apply (.Lambda ⟨[120], 1⟩ (.Var (⟨[120], 1⟩ : Name)))
          (.Constant (.Integer 5))).size ≤ fuel →
        Term.decode nameBinder fuel (em ++ rest) =
          .ok (.Apply (.Lambda ⟨[120], 1⟩ (.Var ⟨[120], 1⟩))
            (.Constant (.Integer 5)), rest) :=
  named_term_roundtrip
    (.Apply (.Lambda ⟨[120], 1⟩ (.Var ⟨[120], 1⟩)) (.Constant (.Integer 5)))
    [] (by decide) (by decide)

/-- C2 (confirmed): the Program with version (11,22,33) and root term
`Constant(Integer(11))` under Named binders serializes to exactly the bytes
`[0b00001011, 0b00010110, 0b00100001, 0b01001000, 0b00000101, 0b10000001]`,
and decoding those bytes yields the original Program. -/
theorem program_flat_fixture :
    Program.to_flat nameBinder
        { version := (11, 22, 33), term := .Constant (.Integer 11) } =
      .ok [0b00001011, 0b00010110, 0b00100001, 0b01001000, 0b00000101,
        0b10000001] ∧
    Program.unflat nameBinder
        [0b00001011, 0b00010110, 0b00100001, 0b01001000, 0b00000101,
          0b10000001] =
      .ok ({ version := (11, 22, 33), term := .Constant (.Integer 11) }
        : Program Name) := by
  constructor
  · rfl
  · rfl

/-- C3 (code bug): `safe_encode_bits` checks `2^w < v` instead of
`2^w ≤ v`, so the boundary value `v = 2^w` — which cannot fit in `w` bits —
is not rejected: at width 4 the value 16 is accepted and its low four bits
(all zeros) are silently written, where the claim (and the function's own
error message) require an Overflow failure with nothing written. -/
theorem safe_encode_bits_boundary_accepted :
    safe_encode_bits 4 16 [] = .ok [false, false, false, false] := by
  rfl

/-- C4 (code bug): `DefaultFunction::encode` writes the 7-bit builtin id
with `e.bits` directly, performing no overflow check at all: the
out-of-range wire value 128 is encoded successfully as seven zero bits
instead of failing with Overflow; and even `safe_encode_bits` at width 7
accepts 128 because of its off-by-one comparison. -/
theorem builtin_encode_no_overflow_check :
    DefaultFunction.encode 128 [] =
      .ok [false, false, false, false, false, false, false] ∧
    safe_encode_bits 7 128 [] =
      .ok [false, false, false, false, false, false, false] := by
  constructor
  · rfl
  · rfl

/-- C5 (code bug): not every decode returns a value or an error:
`decode_constant` indexes `u8_list[0]` without checking for emptiness, so a
stream whose constant-tag list is empty (first bit 0, e.g. the byte
`0b00000001`, or term tag 4 followed by a 0 bit) makes the decoder panic. -/
theorem decode_constant_empty_tag_list_panics :
    Constant.decode (bytesToBits [0b00000001]) = .panic ∧
    Term.decode nameBinder 2 (bitsOf 4 4 ++ [false]) = .panic := by
  constructor
  · rfl
  · rfl

/-- C6 (confirmed): a term tag of 8 or more fails with the
unknown-term-constructor-tag error, and a constant kind tag outside 0..4
fails with the unknown-constant-tag error, in both cases independently of
whatever input follows the bad tag and without returning any term. -/
theorem unknown_tag_rejection :
    (∀ tag fuel rest, 8 ≤ tag → tag < 16 →
      Term.decode nameBinder (fuel + 1) (bitsOf 4 tag ++ rest) =
        .err ("Unknown term constructor tag: " ++ toString tag)) ∧
    (∀ tag rest, 5 ≤ tag → tag < 16 →
      Constant.decode (true :: (bitsOf 4 tag ++ (false :: rest))) =
        .err ("Unknown constant constructor tag: " ++ toString tag)) := by
  constructor
  · intro tag fuel rest h8 h16
    rw [Term.decode, decode_term_tag_bitsOf tag rest h16]
    simp only [RResult.andThen]
    interval_cases tag <;> rfl
  · intro tag rest h5 h16
    rw [Constant.decode, decode_constant_singleton tag rest h16]
    simp only [RResult.andThen]
    interval_cases tag <;> rfl

/-- C6 (witness): the rejection at the concrete bad tags 8 (term) and 5
(constant) on otherwise empty continuations. -/
theorem unknown_tag_rejection_witness :
    Term.decode nameBinder 1 (bitsOf 4 8 ++ []) =
      .err "Unknown term constructor tag: 8" ∧
    Constant.decode (true :: (bitsOf 4 5 ++ (false :: []))) =
      .err "Unknown constant constructor tag: 5" :=
  ⟨(unknown_tag_rejection.1 8 0 [] (by omega) (by omega)).trans (by rfl),
   (unknown_tag_rejection.2 5 [] (by omega) (by omega)).trans (by rfl)⟩

/-- C7 (confirmed): the DeBruijn binder strategy writes zero bits at a
binder position, always decodes a binder position to the sentinel index 0
without consuming input, and round-trips occurrence indices exactly
through the variable-length unsigned encoding. -/
theorem debruijn_binder_strategy (i : DeBruijn) (e rest em : Bits) :
    deBruijnBinder.binder_encode i e = .ok e ∧
    deBruijnBinder.binder_decode e = .ok (DeBruijn.new 0, e) ∧
    (deBruijnBinder.enc i [] = .ok em →
      deBruijnBinder.dec (em ++ rest) = .ok (i, rest)) := by
  refine ⟨rfl, rfl, ?_⟩
  intro h
  have hem : em = wordBitsF (i + 1) i := by
    have h2 : Except.ok ([] ++ wordBitsF (i + 1) i) =
        (Except.ok em : EncResult) := h
    simpa using (Except.ok.inj h2).symm
  subst hem
  show DeBruijn.decode _ = _
  rw [DeBruijn.decode, decodeUsize_encodeWord, RResult.andThen, DeBruijn.new]

/-- C7 (witness): the DeBruijn strategy at the concrete index 5. -/
theorem debruijn_binder_strategy_witness :
    deBruijnBinder.binder_encode 5 [true] = .ok [true] ∧
    deBruijnBinder.binder_decode [true] = .ok (DeBruijn.new 0, [true]) ∧
    deBruijnBinder.dec (wordBitsF 6 5 ++ [false]) = .ok (5, [false]) :=
  ⟨(debruijn_binder_strategy 5 [true] [] []).1,
   (debruijn_binder_strategy 5 [true] [] []).2.1,
   (debruijn_binder_strategy 5 [] [false] (wordBitsF 6 5)).2.2 (by rfl)⟩

/-- C8 (confirmed): the NamedDeBruijn binder strategy writes only the
display text at a binder position (the encoding does not depend on the
index), decodes a binder position to the text with the sentinel index 0,
and round-trips both text and index at an occurrence. -/
theorem named_debruijn_binder_strategy (n : NamedDeBruijn) (i : DeBruijn)
    (e : Bits) (h : listU8 n.text = true) :
    (namedDeBruijnBinder.binder_encode n e =
      namedDeBruijnBinder.binder_encode { text := n.text, index := i } e) ∧
    (∃ em, namedDeBruijnBinder.binder_encode n e = .ok (e ++ em) ∧
      ∀ rest, namedDeBruijnBinder.binder_decode (em ++ rest) =
        .ok ({ text := n.text, index := DeBruijn.new 0 }, rest)) ∧
    (∃ em, namedDeBruijnBinder.enc n e = .ok (e ++ em) ∧
      ∀ rest, namedDeBruijnBinder.dec (em ++ rest) = .ok (n, rest)) := by
  refine ⟨rfl, ?_, namedDeBruijn_codec_roundtrip n e h⟩
  refine ⟨fillerBits e.length ++ blocksBits n.text, ?_, ?_⟩
  · show Except.ok (encodeString n.text e) = _
    rw [encodeString, encodeBytes_emit]
  · intro rest
    show (decodeString _).andThen _ = _
    rw [decodeString, decodeBytes_fillerBlocks n.text e.length rest
      (listU8_mem h), RResult.andThen]

/-- C8 (witness): the NamedDeBruijn strategy at the concrete binder
`{text := "h", index := 7}` (with 3 as the alternative index). -/
theorem named_debruijn_binder_strategy_witness :
    (namedDeBruijnBinder.binder_encode ⟨[104], 7⟩ [] =
      namedDeBruijnBinder.binder_encode { text := [104], index := 3 } []) ∧
    (∃ em, namedDeBruijnBinder.binder_encode ⟨[104], 7⟩ [] = .ok ([] ++ em) ∧
      ∀ rest, namedDeBruijnBinder.binder_decode (em ++ rest) =
        .ok ({ text := [104], index := DeBruijn.new 0 }, rest)) ∧
    (∃ em, namedDeBruijnBinder.enc ⟨[104], 7⟩ [] = .ok ([] ++ em) ∧
      ∀ rest, namedDeBruijnBinder.dec (em ++ rest) =
        .ok (⟨[104], 7⟩, rest)) :=
  named_debruijn_binder_strategy ⟨[104], 7⟩ 3 [] (by decide)

/-- C9 (counterexample): an encoded `Char` constant is distinguishable from
an encoded `ByteString` constant holding the same bytes: the `ByteString`
constant carries its kind tag, the `Char` does not, so the two encodings of
the byte 97 ('a') differ. -/
theorem char_encoding_differs_from_bytestring_constant :
    Constant.encode (.Char 97) [] ≠ Constant.encode (.ByteString [97]) [] := by
  decide

/-- C9 (amended): encoding a `Char` constant writes no constant-kind tag at
all and emits exactly the character's UTF-8 byte representation through the
byte-string payload path: its wire form is the bare `ByteString` payload
encoding, whereas an encoded `ByteString` constant prefixes the same
payload with its kind tag (the one-element 4-bit tag list for tag 1). -/
theorem char_encodes_as_bare_bytestring_payload (c : Nat) (bs : List Nat)
    (e : Bits) :
    Constant.encode (.Char c) e = .ok (encodeBytes (utf8Bytes c) e) ∧
    Constant.encode (.ByteString bs) e =
      .ok (encodeBytes bs (e ++ (true :: (bitsOf 4 1 ++ [false])))) := by
  constructor
  · rfl
  · simp only [Constant.encode]
    rw [encode_constant_ok 1 e (by omega)]
    simp [Bind.bind, Except.bind, pure, Except.pure]

/-- C10 (confirmed): a successfully decoded Constant is never the `Char`
variant: the decoder dispatches only to Integer, ByteString, String, Unit
and Bool. -/
theorem decoded_constant_never_char (d : Bits) (c : Constant) (s : Bits)
    (h : Constant.decode d = .ok (c, s)) : isCharConstant c = false := by
  rw [Constant.decode] at h
  cases hd : decode_constant d with
  | ok v =>
    obtain ⟨tag, s1⟩ := v
    rw [hd] at h
    simp only [RResult.andThen] at h
    rcases tag with _ | _ | _ | _ | _ | x
    · cases hi : decodeInt s1 with
      | ok p =>
        rw [hi] at h
        simp only [RResult.andThen] at h
        obtain ⟨rfl, -⟩ := Prod.mk.inj (RResult.ok.inj h)
        rfl
      | err m => rw [hi] at h; simp only [RResult.andThen] at h; cases h
      | panic => rw [hi] at h; simp only [RResult.andThen] at h; cases h
    · cases hi : decodeBytes s1 with
      | ok p =>
        rw [hi] at h
        simp only [RResult.andThen] at h
        obtain ⟨rfl, -⟩ := Prod.mk.inj (RResult.ok.inj h)
        rfl
      | err m => rw [hi] at h; simp only [RResult.andThen] at h; cases h
      | panic => rw [hi] at h; simp only [RResult.andThen] at h; cases h
    · cases hi : decodeString s1 with
      | ok p =>
        rw [hi] at h
        simp only [RResult.andThen] at h
        obtain ⟨rfl, -⟩ := Prod.mk.inj (RResult.ok.inj h)
        rfl
      | err m => rw [hi] at h; simp only [RResult.andThen] at h; cases h
      | panic => rw [hi] at h; simp only [RResult.andThen] at h; cases h
    · obtain ⟨rfl, -⟩ := Prod.mk.inj (RResult.ok.inj h)
      rfl
    · cases hi : decodeBool s1 with
      | ok p =>
        rw [hi] at h
        simp only [RResult.andThen] at h
        obtain ⟨rfl, -⟩ := Prod.mk.inj (RResult.ok.inj h)
        rfl
      | err m => rw [hi] at h; simp only [RResult.andThen] at h; cases h
      | panic => rw [hi] at h; simp only [RResult.andThen] at h; cases h
    · cases h
  | err m => rw [hd] at h; simp only [RResult.andThen] at h; cases h
  | panic => rw [hd] at h; simp only [RResult.andThen] at h; cases h

/-- C10 (witness): the decoder applied to the encoding of `Integer 11`
yields a constant that is not a `Char`. -/
theorem decoded_constant_never_char_witness :
    isCharConstant (.Integer 11) = false :=
  decoded_constant_never_char
    (true :: (bitsOf 4 0 ++ (false :: byteBits 22))) (.Integer 11) []
    (by rfl)
